import Mathlib

set_option maxHeartbeats 1000000

/-!
Shallow embedding of the `similar` crate's text-diffing module
(`src/text/mod.rs`) together with the repository's core diffing
primitives that the module calls (`capture_diff_slices`,
`get_diff_ratio`, `DiffOp`, `Change`, the tokenizers and the quick
ratio helpers).  The core primitives live outside the provided source
tree, so they are modelled from the specification; the definitions that
correspond to code in `src/text/mod.rs` follow that code directly.

Machine floats (`f32`) are modelled by exact rationals (`ℚ`).
-/

/-- Modelled from the spec: the `Algorithm` selector enum `{Myers, Patience}`
(§3, §6 of the spec).  The enum itself lives in the crate root, outside the
provided source tree. -/
inductive Algorithm
  | myers
  | patience
deriving DecidableEq

/-- The tag of a diff operation: `{Equal, Delete, Insert, Replace}`. -/
inductive DiffTag
  | equal
  | delete
  | insert
  | replace
deriving DecidableEq

/-- Modelled from the spec: a Diff Op is "a tagged value over
`{Equal, Delete, Insert, Replace}`, each carrying: old-range start index +
length, new-range start index + length" (§3).  The `DiffOp` enum lives in the
crate root, outside the provided source tree. -/
structure DiffOp where
  tag : DiffTag
  old_index : ℕ
  old_len : ℕ
  new_index : ℕ
  new_len : ℕ
deriving DecidableEq

/-- Modelled from the spec: a Change is "one concrete
(tag, old-index-or-none, new-index-or-none, value) tuple derived by expanding
a Diff Op against the two original sequences" (§3). -/
structure Change (α : Type) where
  tag : DiffTag
  old_index : Option ℕ
  new_index : Option ℕ
  value : α
deriving DecidableEq

/-- One atomic column of an edit script: keep (diagonal), delete (old side),
insert (new side). -/
inductive Step
  | keep
  | del
  | ins
deriving DecidableEq

/-- Number of non-`keep` steps: the cost (length) of an edit script. -/
def stepCost : List Step → ℕ
  | [] => 0
  | s :: rest => (if s = Step.keep then 0 else 1) + stepCost rest

/-- Modelled from the spec: the Myers shortest-edit-script recursion (§4.2) —
always take the diagonal when the heads agree, otherwise take whichever of
delete-first / insert-first yields the cheaper script, preferring delete on
ties (a deterministic tie-break).  The fuel argument makes the recursion
structural; callers always supply fuel `|xs| + |ys|`, which is enough for the
fallback branch never to be taken (each recursive call shrinks the combined
length by at least one). -/
def sesF [DecidableEq α] : ℕ → List α → List α → List Step
  | 0, xs, ys => (xs.map fun _ => Step.del) ++ (ys.map fun _ => Step.ins)
  | _ + 1, [], ys => ys.map fun _ => Step.ins
  | _ + 1, x :: xs, [] => (x :: xs).map fun _ => Step.del
  | f + 1, x :: xs, y :: ys =>
    if x = y then Step.keep :: sesF f xs ys
    else
      let d := sesF f xs (y :: ys)
      let i := sesF f (x :: xs) ys
      if stepCost d ≤ stepCost i then Step.del :: d else Step.ins :: i

/-- The shortest edit script between two sequences (Myers strategy). -/
def myersSteps [DecidableEq α] (xs ys : List α) : List Step :=
  sesF (xs.length + ys.length) xs ys

/-- Expand an edit script into unit-length diff ops, starting at absolute
old/new indices `i`, `j`. -/
def stepOps : ℕ → ℕ → List Step → List DiffOp
  | _, _, [] => []
  | i, j, Step.keep :: rest => ⟨DiffTag.equal, i, 1, j, 1⟩ :: stepOps (i + 1) (j + 1) rest
  | i, j, Step.del :: rest => ⟨DiffTag.delete, i, 1, j, 0⟩ :: stepOps (i + 1) j rest
  | i, j, Step.ins :: rest => ⟨DiffTag.insert, i, 0, j, 1⟩ :: stepOps i (j + 1) rest

/-- The raw (unit-op) Myers diff of `xs` against `ys`, with indices offset by
`o`/`p`. -/
def myersRaw [DecidableEq α] (xs ys : List α) (o p : ℕ) : List DiffOp :=
  stepOps o p (myersSteps xs ys)

/-- Number of occurrences of `x` in a list. -/
def countTok [DecidableEq α] (x : α) : List α → ℕ
  | [] => 0
  | y :: rest => (if y = x then 1 else 0) + countTok x rest

/-- Index of the first occurrence of `x`, if any. -/
def firstIdx [DecidableEq α] (x : α) : List α → Option ℕ
  | [] => none
  | y :: rest => if y = x then some 0 else (firstIdx x rest).map (· + 1)

/-- Modelled from the spec: the patience strategy's "unique common tokens" —
cross-matched positions of tokens that occur exactly once in both sequences
(§4.2), listed in increasing old-index order. -/
def uniqueCommon [DecidableEq α] (xs ys : List α) : List (ℕ × ℕ) :=
  (List.range xs.length).filterMap fun i =>
    match xs[i]? with
    | none => none
    | some x =>
      if countTok x xs = 1 ∧ countTok x ys = 1 then
        (firstIdx x ys).map fun k => (i, k)
      else none

/-- Whether `q` may extend a chain whose last element is `c` (strictly
increasing in both coordinates). -/
def lisCompat (c : Option (ℕ × ℕ)) (q : ℕ × ℕ) : Bool :=
  match c with
  | none => true
  | some p => decide (p.1 < q.1 ∧ p.2 < q.2)

/-- Longest chain (in both coordinates) extending a chain ending in `c`,
preferring to skip the head on ties. -/
def lisAux : Option (ℕ × ℕ) → List (ℕ × ℕ) → List (ℕ × ℕ)
  | _, [] => []
  | c, q :: rest =>
    let without := lisAux c rest
    if lisCompat c q then
      let withQ := q :: lisAux (some q) rest
      if without.length < withQ.length then withQ else without
    else without

/-- Modelled from the spec: the longest increasing subsequence of the
cross-matched unique-common positions, used as patience anchors (§4.2). -/
def lis (l : List (ℕ × ℕ)) : List (ℕ × ℕ) := lisAux none l

mutual

/-- Modelled from the spec: the patience strategy (§4.2) — anchor on the LIS
of unique common tokens, recursively diff the gaps between anchors, and fall
back to Myers when no anchors exist.  `o`/`p` are the absolute offsets of
`xs`/`ys` inside the original sequences; the fuel bounds the recursion depth
(callers supply the combined input length, which suffices because every
nested call works on a strictly smaller problem). -/
def patienceRaw [DecidableEq α] : ℕ → List α → List α → ℕ → ℕ → List DiffOp
  | 0, xs, ys, o, p => myersRaw xs ys o p
  | fuel + 1, xs, ys, o, p =>
    match lis (uniqueCommon xs ys) with
    | [] => myersRaw xs ys o p
    | a :: rest => patienceGo fuel xs ys o p 0 0 (a :: rest)
termination_by fuel _ _ _ _ => (fuel, 0)

/-- Process the anchor list: `a`/`b` are the relative positions inside
`xs`/`ys` up to which the diff has already been emitted. -/
def patienceGo [DecidableEq α] : ℕ → List α → List α → ℕ → ℕ → ℕ → ℕ → List (ℕ × ℕ) → List DiffOp
  | fuel, xs, ys, o, p, a, b, [] => patienceRaw fuel (xs.drop a) (ys.drop b) (o + a) (p + b)
  | fuel, xs, ys, o, p, a, b, (i, k) :: rest =>
    patienceRaw fuel ((xs.drop a).take (i - a)) ((ys.drop b).take (k - b)) (o + a) (p + b)
    ++ ⟨DiffTag.equal, o + i, 1, p + k, 1⟩ :: patienceGo fuel xs ys o p (i + 1) (k + 1) rest
termination_by fuel _ _ _ _ _ _ anchors => (fuel, anchors.length + 1)

end

/-- `true` exactly on the `Equal` tag. -/
def isEqTag : DiffTag → Bool
  | DiffTag.equal => true
  | _ => false

/-- The tag of a merged change run with `ol` deleted and `nl` inserted
tokens. -/
def changeTag (ol nl : ℕ) : DiffTag :=
  if 0 < ol then (if 0 < nl then DiffTag.replace else DiffTag.delete) else DiffTag.insert

/-- Modelled from the spec: the capturing hook's merge step — "adjacent ops of
identical tag are coalesced" and adjacent delete/insert runs fuse into a
`Replace` op (§3, §4.2).  The accumulator is kept in reverse order. -/
def push (acc : List DiffOp) (u : DiffOp) : List DiffOp :=
  match acc with
  | [] => [u]
  | op :: rest =>
    if isEqTag op.tag && isEqTag u.tag then
      ⟨DiffTag.equal, op.old_index, op.old_len + u.old_len, op.new_index, op.new_len + u.new_len⟩ :: rest
    else if !isEqTag op.tag && !isEqTag u.tag then
      ⟨changeTag (op.old_len + u.old_len) (op.new_len + u.new_len),
        op.old_index, op.old_len + u.old_len, op.new_index, op.new_len + u.new_len⟩ :: rest
    else u :: op :: rest

/-- Coalesce a stream of unit ops into merged ops. -/
def coalesce (units : List DiffOp) : List DiffOp := (units.foldl push []).reverse

/-- Modelled from the spec: `capture_diff_slices` — run the selected matcher
strategy and capture its output as a coalesced op list (§4.2).  The function
lives in the crate root, outside the provided source tree. -/
def capture_diff_slices [DecidableEq α] (alg : Algorithm) (old new : List α) : List DiffOp :=
  match alg with
  | Algorithm.myers => coalesce (myersRaw old new 0 0)
  | Algorithm.patience => coalesce (patienceRaw (old.length + new.length) old new 0 0)

/-- `TextDiffConfig` from `src/text/mod.rs`: an algorithm plus an optional
newline-termination override. -/
structure TextDiffConfig where
  algorithm : Algorithm
  newline_terminated : Option Bool
deriving DecidableEq

/-- The `Default` impl in `src/text/mod.rs`: Myers, no override. -/
def TextDiffConfig.default : TextDiffConfig := ⟨Algorithm.myers, none⟩

/-- The builder method `TextDiffConfig::algorithm`. -/
def TextDiffConfig.withAlgorithm (cfg : TextDiffConfig) (alg : Algorithm) : TextDiffConfig :=
  { cfg with algorithm := alg }

/-- The builder method `TextDiffConfig::newline_terminated`: sets the override
to `Some yes`. -/
def TextDiffConfig.withNewlineTerminated (cfg : TextDiffConfig) (yes : Bool) : TextDiffConfig :=
  { cfg with newline_terminated := some yes }

/-- `TextDiff` from `src/text/mod.rs`: the two tokenized inputs, the captured
ops, the newline flag and the algorithm used. -/
structure TextDiff (α : Type) where
  old : List α
  new : List α
  ops : List DiffOp
  newline_terminated : Bool
  algorithm : Algorithm

/-- `TextDiffConfig::diff` from `src/text/mod.rs`: capture the ops and resolve
the newline flag as `self.newline_terminated.unwrap_or(newline_terminated)`. -/
def TextDiffConfig.diff [DecidableEq α] (cfg : TextDiffConfig) (old new : List α)
    (newline_terminated : Bool) : TextDiff α :=
  ⟨old, new, capture_diff_slices cfg.algorithm old new,
    cfg.newline_terminated.getD newline_terminated, cfg.algorithm⟩

/-- Modelled from the spec: character tokenization — "one token per scalar
character" (§4.1).  Text is represented as its character list, so the token
sequence is the list itself. -/
def tokenize_chars (s : List Char) : List Char := s

/-- Helper for line tokenization: `acc` holds the current line, reversed. -/
def tokLinesGo : List Char → List Char → List (List Char)
  | acc, [] => if acc.isEmpty then [] else [acc.reverse]
  | acc, c :: rest =>
    if c = '\n' then (acc.reverse ++ ['\n']) :: tokLinesGo [] rest
    else tokLinesGo (c :: acc) rest

/-- Modelled from the spec: line tokenization — "splits after every line
terminator, the terminator included in the preceding token; a final
unterminated fragment is its own last token" (§4.1). -/
def tokenize_lines (s : List Char) : List (List Char) := tokLinesGo [] s

/-- Helper for word tokenization: `cls` is the whitespace-class of the run
being accumulated (reversed) in `acc`. -/
def tokWordsGo (cls : Bool) : List Char → List Char → List (List Char)
  | acc, [] => if acc.isEmpty then [] else [acc.reverse]
  | acc, c :: rest =>
    if c.isWhitespace = cls then tokWordsGo cls (c :: acc) rest
    else acc.reverse :: tokWordsGo c.isWhitespace [c] rest

/-- Modelled from the spec: word tokenization — "alternates runs of whitespace
and non-whitespace into separate tokens, covering the whole buffer" (§4.1). -/
def tokenize_words : List Char → List (List Char)
  | [] => []
  | c :: rest => tokWordsGo c.isWhitespace [c] rest

/-- `TextDiffConfig::diff_lines` from `src/text/mod.rs`: tokenize by lines and
diff with per-granularity newline default `true`. -/
def TextDiffConfig.diff_lines (cfg : TextDiffConfig) (old new : List Char) : TextDiff (List Char) :=
  cfg.diff (tokenize_lines old) (tokenize_lines new) true

/-- `TextDiffConfig::diff_words` from `src/text/mod.rs`: newline default
`false`. -/
def TextDiffConfig.diff_words (cfg : TextDiffConfig) (old new : List Char) : TextDiff (List Char) :=
  cfg.diff (tokenize_words old) (tokenize_words new) false

/-- `TextDiffConfig::diff_chars` from `src/text/mod.rs`: newline default
`false`. -/
def TextDiffConfig.diff_chars (cfg : TextDiffConfig) (old new : List Char) : TextDiff Char :=
  cfg.diff (tokenize_chars old) (tokenize_chars new) false

/-- `TextDiffConfig::diff_unicode_words` from `src/text/mod.rs`: the Unicode
segmentation itself is delegated to an external segmenter (spec §4.1), taken
here as a parameter; the newline default is `false`. -/
def TextDiffConfig.diff_unicode_words (cfg : TextDiffConfig)
    (segment : List Char → List (List Char)) (old new : List Char) : TextDiff (List Char) :=
  cfg.diff (segment old) (segment new) false

/-- `TextDiffConfig::diff_graphemes` from `src/text/mod.rs`: grapheme
segmentation is delegated to an external segmenter (spec §4.1), taken here as
a parameter; the newline default is `false`. -/
def TextDiffConfig.diff_graphemes (cfg : TextDiffConfig)
    (segment : List Char → List (List Char)) (old new : List Char) : TextDiff (List Char) :=
  cfg.diff (segment old) (segment new) false

/-- `TextDiffConfig::diff_slices` from `src/text/mod.rs`: diff arbitrary token
slices, newline default `false`. -/
def TextDiffConfig.diff_slices [DecidableEq α] (cfg : TextDiffConfig) (old new : List α) :
    TextDiff α :=
  cfg.diff old new false

/-- `TextDiff::from_lines` from `src/text/mod.rs`. -/
def TextDiff.from_lines (old new : List Char) : TextDiff (List Char) :=
  TextDiffConfig.diff_lines TextDiffConfig.default old new

/-- `TextDiff::from_words` from `src/text/mod.rs`. -/
def TextDiff.from_words (old new : List Char) : TextDiff (List Char) :=
  TextDiffConfig.diff_words TextDiffConfig.default old new

/-- `TextDiff::from_chars` from `src/text/mod.rs`. -/
def TextDiff.from_chars (old new : List Char) : TextDiff Char :=
  TextDiffConfig.diff_chars TextDiffConfig.default old new

/-- `TextDiff::from_slices` from `src/text/mod.rs`. -/
def TextDiff.from_slices [DecidableEq α] (old new : List α) : TextDiff α :=
  TextDiffConfig.diff_slices TextDiffConfig.default old new

/-- Sum of the lengths of the `Equal` ops: the matched-token count `M`. -/
def sumEqualLen (ops : List DiffOp) : ℕ :=
  (ops.map fun op => if op.tag = DiffTag.equal then op.old_len else 0).sum

/-- Modelled from the spec: `get_diff_ratio` — "`2 * M / T` where `M` is the
total count of tokens classified as matching (sum of `Equal` run lengths) and
`T` is `len(old) + len(new)`; both-empty inputs define ratio `1.0`" (§4.3).
The `f32` result is modelled exactly in `ℚ`.  The function lives in the crate
root, outside the provided source tree. -/
def get_diff_ratioQ (ops : List DiffOp) (old_len new_len : ℕ) : ℚ :=
  if old_len + new_len = 0 then 1
  else 2 * (sumEqualLen ops : ℚ) / ((old_len : ℚ) + (new_len : ℚ))

/-- `TextDiff::ratio` from `src/text/mod.rs`:
`get_diff_ratio(self.ops(), self.old.len(), self.new.len())`, with `f32`
modelled in `ℚ`. -/
def TextDiff.ratioQ (d : TextDiff α) : ℚ :=
  get_diff_ratioQ d.ops d.old.length d.new.length

/-- The half-open token range `[i, i+len)` of a list. -/
def sliceAt (l : List α) (i len : ℕ) : List α := (l.drop i).take len

/-- Modelled from the spec: `DiffOp::iter_changes` — expand one op against the
two original sequences into `Change` tuples; `Replace` expands into its
deletions followed by its insertions (§3).  The function lives in the crate
root, outside the provided source tree. -/
def DiffOp.changes (old new : List α) (op : DiffOp) : List (Change α) :=
  match op.tag with
  | DiffTag.equal =>
    (sliceAt old op.old_index op.old_len).enum.map fun q =>
      ⟨DiffTag.equal, some (op.old_index + q.1), some (op.new_index + q.1), q.2⟩
  | DiffTag.delete =>
    (sliceAt old op.old_index op.old_len).enum.map fun q =>
      ⟨DiffTag.delete, some (op.old_index + q.1), none, q.2⟩
  | DiffTag.insert =>
    (sliceAt new op.new_index op.new_len).enum.map fun q =>
      ⟨DiffTag.insert, none, some (op.new_index + q.1), q.2⟩
  | DiffTag.replace =>
    ((sliceAt old op.old_index op.old_len).enum.map fun q =>
      (⟨DiffTag.delete, some (op.old_index + q.1), none, q.2⟩ : Change α))
    ++ (sliceAt new op.new_index op.new_len).enum.map fun q =>
      ⟨DiffTag.insert, none, some (op.new_index + q.1), q.2⟩

/-- `TextDiff::iter_changes` from `src/text/mod.rs`: delegate to the op's own
expansion against the stored slices. -/
def TextDiff.iter_changes (d : TextDiff α) (op : DiffOp) : List (Change α) :=
  DiffOp.changes d.old d.new op

/-- `TextDiff::iter_all_changes` from `src/text/mod.rs`: flat-map
`iter_changes` over `ops`. -/
def TextDiff.iter_all_changes (d : TextDiff α) : List (Change α) :=
  (d.ops.map (TextDiff.iter_changes d)).flatten

/-- Modelled from the spec: `upper_seq_ratio` — the length-based upper bound
`2 * min(|a|,|b|) / (|a|+|b|)` on the ratio, `1` when both are empty (§4.3,
§4.7).  Lives in `text/utils.rs`, outside the provided source tree. -/
def upper_seq_ratioQ (a b : List α) : ℚ :=
  if a.length + b.length = 0 then 1
  else 2 * ((min a.length b.length : ℕ) : ℚ) / ((a.length : ℚ) + (b.length : ℚ))

/-- Modelled from the spec: `QuickSeqRatio` — the quick ratio "computed from
multiset (count-per-distinct-token) intersection sizes of old and new" (§4.3),
`1` when both are empty.  Lives in `text/utils.rs`, outside the provided
source tree. -/
def quickSeqRatioQ [DecidableEq α] (a b : List α) : ℚ :=
  if a.length + b.length = 0 then 1
  else 2 * ((a.bagInter b).length : ℚ) / ((a.length : ℚ) + (b.length : ℚ))

/-- The exact character-diff ratio of a query against one candidate, exactly
as `get_close_matches` computes it:
`TextDiff::from_slices(&tokenize_chars word, &tokenize_chars p).ratio()`. -/
def closeMatchRatioQ (word p : List Char) : ℚ :=
  TextDiff.ratioQ (TextDiff.from_slices (tokenize_chars word) (tokenize_chars p))

/-- The order in which the max-heap of `get_close_matches` pops its entries
`(ratio, candidate)`: larger ratio first, and on equal ratios the
lexicographically smaller candidate first (the source stores
`Reverse(possibility)` next to the ratio for exactly this purpose). -/
def closeRel (a b : ℚ × List Char) : Prop :=
  b.1 < a.1 ∨ (a.1 = b.1 ∧ a.2 ≤ b.2)

instance : DecidableRel closeRel := fun a b =>
  inferInstanceAs (Decidable (b.1 < a.1 ∨ (a.1 = b.1 ∧ a.2 ≤ b.2)))

instance : IsTrans (ℚ × List Char) closeRel where
  trans := by
    rintro a b c (h₁ | ⟨h₁, h₁'⟩) (h₂ | ⟨h₂, h₂'⟩)
    · exact Or.inl (lt_trans h₂ h₁)
    · exact Or.inl (h₂ ▸ h₁)
    · exact Or.inl (h₁ ▸ h₂)
    · exact Or.inr ⟨h₁.trans h₂, le_trans h₁' h₂'⟩

instance : IsAntisymm (ℚ × List Char) closeRel where
  antisymm := by
    intro a b h h'
    rcases h with h₁ | ⟨h₁, h₁'⟩
    · rcases h' with h₂ | ⟨h₂, h₂'⟩
      · exact absurd h₁ (not_lt_of_lt h₂)
      · exact absurd h₁ (h₂ ▸ lt_irrefl _)
    · rcases h' with h₂ | ⟨h₂, h₂'⟩
      · exact absurd h₂ (h₁ ▸ lt_irrefl _)
      · exact Prod.ext h₁ (le_antisymm h₁' h₂')

instance : IsTotal (ℚ × List Char) closeRel where
  total := by
    intro a b
    rcases lt_trichotomy a.1 b.1 with h | h | h
    · exact Or.inr (Or.inl h)
    · rcases le_total a.2 b.2 with h' | h'
      · exact Or.inl (Or.inr ⟨h, h'⟩)
      · exact Or.inr (Or.inr ⟨h.symm, h'⟩)
    · exact Or.inl (Or.inl h)

/-- The multiset of `(ratio, candidate)` pairs that `get_close_matches` pushes
onto its heap: candidates passing both quick-ratio pre-filters and whose exact
ratio reaches the cutoff. -/
def closeMatchHeap (word : List Char) (possibilities : List (List Char)) (cutoff : ℚ) :
    List (ℚ × List Char) :=
  possibilities.filterMap fun possibility =>
    let seq1 := tokenize_chars word
    let seq2 := tokenize_chars possibility
    if upper_seq_ratioQ seq1 seq2 < cutoff ∨ quickSeqRatioQ seq1 seq2 < cutoff then none
    else
      let r := TextDiff.ratioQ (TextDiff.from_slices seq1 seq2)
      if cutoff ≤ r then some (r, possibility) else none

/-- `get_close_matches` from `src/text/mod.rs`: pre-filter by the two quick
ratios, keep candidates whose exact ratio reaches the cutoff in a max-heap
keyed on `(ratio, Reverse(candidate))`, then pop at most `n` entries.  The
heap's pop sequence — its entries in decreasing `closeRel` order — is modelled
by sorting the pushed entries by `closeRel`; the source quantises the `f32`
ratio key to a `u32`, modelled here by the exact rational ratio. -/
def get_close_matches (word : List Char) (possibilities : List (List Char)) (n : ℕ)
    (cutoff : ℚ) : List (List Char) :=
  ((List.insertionSort closeRel (closeMatchHeap word possibilities cutoff)).take n).map
    Prod.snd

/-! ## Coverage predicates -/

/-- `covers ops i j i' j'`: the ops are listed in monotonically increasing
old/new index order and tile the old index range `[i, i')` and the new index
range `[j, j')` contiguously — every index of either range is covered by
exactly one op, with no gaps and no overlaps. -/
def covers : List DiffOp → ℕ → ℕ → ℕ → ℕ → Prop
  | [], i, j, i', j' => i = i' ∧ j = j'
  | op :: rest, i, j, i', j' =>
    op.old_index = i ∧ op.new_index = j ∧
    covers rest (i + op.old_len) (j + op.new_len) i' j'

/-- Well-formedness of one op of a coalesced diff against the original
sequences: nonempty, tag-consistent range shapes, and `Equal` ops denote
token-wise identical runs. -/
def opWF (XS YS : List α) (op : DiffOp) : Prop :=
  0 < op.old_len + op.new_len ∧
  (op.tag = DiffTag.equal → op.old_len = op.new_len ∧
    sliceAt XS op.old_index op.old_len = sliceAt YS op.new_index op.new_len) ∧
  (op.tag = DiffTag.delete → 0 < op.old_len ∧ op.new_len = 0) ∧
  (op.tag = DiffTag.insert → op.old_len = 0 ∧ 0 < op.new_len) ∧
  (op.tag = DiffTag.replace → 0 < op.old_len ∧ 0 < op.new_len)

/-- A raw stream of unit ops running from cursor `(i, j)` to cursor
`(i', j')`: contiguous unit-length equal/delete/insert ops whose equal units
match identical tokens of `XS` and `YS`. -/
def unitsOKTo (XS YS : List α) : List DiffOp → ℕ → ℕ → ℕ → ℕ → Prop
  | [], i, j, i', j' => i = i' ∧ j = j'
  | u :: rest, i, j, i', j' =>
    u.old_index = i ∧ u.new_index = j ∧
    ((u.tag = DiffTag.equal ∧ u.old_len = 1 ∧ u.new_len = 1 ∧
        ∃ x, XS[i]? = some x ∧ YS[j]? = some x) ∨
      (u.tag = DiffTag.delete ∧ u.old_len = 1 ∧ u.new_len = 0) ∨
      (u.tag = DiffTag.insert ∧ u.old_len = 0 ∧ u.new_len = 1)) ∧
    unitsOKTo XS YS rest (i + u.old_len) (j + u.new_len) i' j'

/-- An edit script is valid for a pair of sequences: `keep` steps consume one
identical token on both sides, `del`/`ins` steps consume one token of the
old/new side. -/
inductive StepsOK : List Step → List α → List α → Prop
  | nil : StepsOK [] [] []
  | keep {x : α} {xs ys s} : StepsOK s xs ys → StepsOK (Step.keep :: s) (x :: xs) (x :: ys)
  | del {x : α} {xs ys s} : StepsOK s xs ys → StepsOK (Step.del :: s) (x :: xs) ys
  | ins {y : α} {xs ys s} : StepsOK s xs ys → StepsOK (Step.ins :: s) xs (y :: ys)

lemma stepsOK_all_ins (ys : List α) : StepsOK (ys.map fun _ => Step.ins) ([] : List α) ys := by
  induction ys with
  | nil => exact StepsOK.nil
  | cons y ys ih => exact StepsOK.ins ih

lemma stepsOK_dels_append {s : List Step} {ys : List α} (xs : List α)
    (h : StepsOK s ([] : List α) ys) :
    StepsOK ((xs.map fun _ => Step.del) ++ s) xs ys := by
  induction xs with
  | nil => simpa using h
  | cons x xs ih => exact StepsOK.del ih

lemma stepsOK_sesF [DecidableEq α] : ∀ (f : ℕ) (xs ys : List α), StepsOK (sesF f xs ys) xs ys := by
  intro f
  induction f with
  | zero =>
    intro xs ys
    exact stepsOK_dels_append xs (stepsOK_all_ins ys)
  | succ f ih =>
    intro xs ys
    match xs, ys with
    | [], ys => exact stepsOK_all_ins ys
    | x :: xs, [] =>
      have h := stepsOK_dels_append (s := []) (x :: xs) (StepsOK.nil (α := α))
      simpa [sesF] using h
    | x :: xs, y :: ys =>
      simp only [sesF]
      split
      · next hxy => exact hxy ▸ StepsOK.keep (ih xs ys)
      · split
        · exact StepsOK.del (ih xs (y :: ys))
        · exact StepsOK.ins (ih (x :: xs) ys)

/-- Indexing into a list that appears (after `o` dropped elements) as a
prefix of `XS`. -/
lemma getElem?_of_drop_eq {XS xs t : List α} {o : ℕ} (h : XS.drop o = xs ++ t) {r : ℕ} {x : α}
    (hx : xs[r]? = some x) : XS[o + r]? = some x := by
  have hr : r < xs.length := by
    rw [List.getElem?_eq_some] at hx
    exact hx.1
  rw [← List.getElem?_drop, h, List.getElem?_append_left hr, hx]

lemma unitsOKTo_append {XS YS : List α} {us vs : List DiffOp} {i j i' j' i'' j'' : ℕ}
    (h₁ : unitsOKTo XS YS us i j i' j') (h₂ : unitsOKTo XS YS vs i' j' i'' j'') :
    unitsOKTo XS YS (us ++ vs) i j i'' j'' := by
  induction us generalizing i j with
  | nil =>
    obtain ⟨rfl, rfl⟩ := h₁
    simpa using h₂
  | cons u us ih =>
    obtain ⟨h₀, h₁', hu, hrest⟩ := h₁
    exact ⟨h₀, h₁', hu, ih hrest⟩

lemma drop_eq_of_drop_cons {XS rest : List α} {o : ℕ} {x : α} (h : XS.drop o = x :: rest) :
    XS.drop (o + 1) = rest := by
  rw [← List.drop_drop 1 o XS, h]
  rfl

lemma unitsOKTo_stepOps {XS YS : List α} {steps : List Step} {xs ys : List α}
    (hok : StepsOK steps xs ys) :
    ∀ (i j : ℕ) (tx ty : List α), XS.drop i = xs ++ tx → YS.drop j = ys ++ ty →
      unitsOKTo XS YS (stepOps i j steps) i j (i + xs.length) (j + ys.length) := by
  induction hok with
  | nil => intro i j tx ty hx hy; exact ⟨by simp, by simp⟩
  | @keep x xs ys s hs ih =>
    intro i j tx ty hx hy
    have hx0 : XS[i]? = some x := by
      have h := getElem?_of_drop_eq hx (show (x :: xs)[0]? = some x by simp)
      simpa using h
    have hy0 : YS[j]? = some x := by
      have h := getElem?_of_drop_eq hy (show (x :: ys)[0]? = some x by simp)
      simpa using h
    have hx' : XS.drop (i + 1) = xs ++ tx := drop_eq_of_drop_cons hx
    have hy' : YS.drop (j + 1) = ys ++ ty := drop_eq_of_drop_cons hy
    refine ⟨rfl, rfl, Or.inl ⟨rfl, rfl, rfl, x, hx0, hy0⟩, ?_⟩
    have e1 : i + (x :: xs).length = i + 1 + xs.length := by simp; omega
    have e2 : j + (x :: ys).length = j + 1 + ys.length := by simp; omega
    rw [e1, e2]
    exact ih (i + 1) (j + 1) tx ty hx' hy'
  | @del x xs ys s hs ih =>
    intro i j tx ty hx hy
    have hx' : XS.drop (i + 1) = xs ++ tx := drop_eq_of_drop_cons hx
    refine ⟨rfl, rfl, Or.inr (Or.inl ⟨rfl, rfl, rfl⟩), ?_⟩
    have e1 : i + (x :: xs).length = i + 1 + xs.length := by simp; omega
    rw [e1]
    have h := ih (i + 1) j tx ty hx' hy
    simpa using h
  | @ins y xs ys s hs ih =>
    intro i j tx ty hx hy
    have hy' : YS.drop (j + 1) = ys ++ ty := drop_eq_of_drop_cons hy
    refine ⟨rfl, rfl, Or.inr (Or.inr ⟨rfl, rfl, rfl⟩), ?_⟩
    have e2 : j + (y :: ys).length = j + 1 + ys.length := by simp; omega
    rw [e2]
    have h := ih i (j + 1) tx ty hx hy'
    simpa using h

lemma unitsOKTo_myersRaw [DecidableEq α] {XS YS xs ys tx ty : List α} {o p : ℕ}
    (hx : XS.drop o = xs ++ tx) (hy : YS.drop p = ys ++ ty) :
    unitsOKTo XS YS (myersRaw xs ys o p) o p (o + xs.length) (p + ys.length) :=
  unitsOKTo_stepOps (stepsOK_sesF (xs.length + ys.length) xs ys) o p tx ty hx hy

/-! ## Coalescing preserves coverage, alternation and well-formedness -/

/-- Adjacent ops belong to different classes (one is `Equal`, the other a
change op); in particular they carry different tags. -/
def altTag (x y : DiffOp) : Prop := ¬ isEqTag x.tag = isEqTag y.tag

/-- Coverage of a reversed accumulator: the head ends at the current cursor
`(i, j)`, each op starts where the previous one ends, and the whole list
starts at `(0, 0)`. -/
def coversRev : List DiffOp → ℕ → ℕ → Prop
  | [], i, j => i = 0 ∧ j = 0
  | op :: rest, i, j =>
    i = op.old_index + op.old_len ∧ j = op.new_index + op.new_len ∧
    coversRev rest op.old_index op.new_index

lemma covers_append {us vs : List DiffOp} {i j i' j' i'' j'' : ℕ}
    (h₁ : covers us i j i' j') (h₂ : covers vs i' j' i'' j'') :
    covers (us ++ vs) i j i'' j'' := by
  induction us generalizing i j with
  | nil => obtain ⟨rfl, rfl⟩ := h₁; simpa using h₂
  | cons u us ih =>
    obtain ⟨h₀, h₁', hrest⟩ := h₁
    exact ⟨h₀, h₁', ih hrest⟩

lemma covers_of_coversRev {acc : List DiffOp} {i j : ℕ} (h : coversRev acc i j) :
    covers acc.reverse 0 0 i j := by
  induction acc generalizing i j with
  | nil => obtain ⟨rfl, rfl⟩ := h; exact ⟨rfl, rfl⟩
  | cons op rest ih =>
    obtain ⟨hi, hj, hrest⟩ := h
    have h1 : covers [op] op.old_index op.new_index i j := ⟨rfl, rfl, hi.symm, hj.symm⟩
    simpa using covers_append (ih hrest) h1

lemma isEqTag_eq_true {t : DiffTag} : isEqTag t = true ↔ t = DiffTag.equal := by
  cases t <;> simp [isEqTag]

lemma isEqTag_changeTag (ol nl : ℕ) : isEqTag (changeTag ol nl) = false := by
  unfold changeTag
  split_ifs <;> rfl

lemma sliceAt_one {XS : List α} {i : ℕ} {x : α} (h : XS[i]? = some x) :
    sliceAt XS i 1 = [x] := by
  have h0 : (XS.drop i)[0]? = some x := by
    rw [List.getElem?_drop]
    simpa using h
  cases hD : XS.drop i with
  | nil => rw [hD] at h0; simp at h0
  | cons y t =>
    rw [hD] at h0
    simp only [List.getElem?_cons_zero, Option.some.injEq] at h0
    subst h0
    simp [sliceAt, hD]

lemma sliceAt_snoc {XS : List α} {i L : ℕ} {x : α} (h : XS[i + L]? = some x) :
    sliceAt XS i (L + 1) = sliceAt XS i L ++ [x] := by
  unfold sliceAt
  rw [List.take_succ]
  congr 1
  rw [List.getElem?_drop, h]
  rfl

lemma opWF_change (XS YS : List α) (oi ol ni nl : ℕ) (hsum : 0 < ol + nl) :
    opWF XS YS ⟨changeTag ol nl, oi, ol, ni, nl⟩ := by
  unfold opWF changeTag
  dsimp only
  split_ifs with h1 h2
  · exact ⟨hsum, by simp, by simp, by simp, fun _ => ⟨h1, h2⟩⟩
  · exact ⟨hsum, by simp, fun _ => ⟨h1, by omega⟩, by simp, by simp⟩
  · exact ⟨hsum, by simp, by simp, fun _ => ⟨by omega, by omega⟩, by simp⟩

/-- The bundle of facts maintained while folding `push` over a unit stream:
the accumulator (in reverse order) covers `[0, i) × [0, j)`, alternates
between `Equal` and change ops, and all its ops are well-formed. -/
def accInv (XS YS : List α) (acc : List DiffOp) (i j : ℕ) : Prop :=
  coversRev acc i j ∧ List.Chain' altTag acc ∧ ∀ op ∈ acc, opWF XS YS op

lemma opWF_unit {XS YS : List α} {u : DiffOp} {i j : ℕ} (hoi : u.old_index = i)
    (hni : u.new_index = j)
    (hu : (u.tag = DiffTag.equal ∧ u.old_len = 1 ∧ u.new_len = 1 ∧
        ∃ x, XS[i]? = some x ∧ YS[j]? = some x) ∨
      (u.tag = DiffTag.delete ∧ u.old_len = 1 ∧ u.new_len = 0) ∨
      (u.tag = DiffTag.insert ∧ u.old_len = 0 ∧ u.new_len = 1)) :
    opWF XS YS u := by
  rcases hu with ⟨ht, h1, h2, x, hx, hy⟩ | ⟨ht, h1, h2⟩ | ⟨ht, h1, h2⟩
  · refine ⟨by omega, fun _ => ⟨by omega, ?_⟩, by simp [ht], by simp [ht], by simp [ht]⟩
    rw [hoi, hni, h1, h2, sliceAt_one hx, sliceAt_one hy]
  · exact ⟨by omega, by simp [ht], fun _ => ⟨by omega, h2⟩, by simp [ht], by simp [ht]⟩
  · exact ⟨by omega, by simp [ht], by simp [ht], fun _ => ⟨h1, by omega⟩, by simp [ht]⟩

lemma chain'_replace_head {merged op : DiffOp} {rest : List DiffOp}
    (hcl : isEqTag merged.tag = isEqTag op.tag) (h : List.Chain' altTag (op :: rest)) :
    List.Chain' altTag (merged :: rest) := by
  cases rest with
  | nil => simp
  | cons b t =>
    rw [List.chain'_cons] at h ⊢
    exact ⟨fun e => h.1 (hcl.symm.trans e), h.2⟩

lemma accInv_push {XS YS : List α} {acc : List DiffOp} {i j : ℕ} {u : DiffOp}
    (hacc : accInv XS YS acc i j) (hoi : u.old_index = i) (hni : u.new_index = j)
    (hu : (u.tag = DiffTag.equal ∧ u.old_len = 1 ∧ u.new_len = 1 ∧
        ∃ x, XS[i]? = some x ∧ YS[j]? = some x) ∨
      (u.tag = DiffTag.delete ∧ u.old_len = 1 ∧ u.new_len = 0) ∨
      (u.tag = DiffTag.insert ∧ u.old_len = 0 ∧ u.new_len = 1)) :
    accInv XS YS (push acc u) (i + u.old_len) (j + u.new_len) := by
  obtain ⟨hcov, hchain, hwf⟩ := hacc
  have huwf : opWF XS YS u := opWF_unit hoi hni hu
  cases acc with
  | nil =>
    obtain ⟨hi0, hj0⟩ := hcov
    subst hi0; subst hj0
    refine ⟨⟨by omega, by omega, ?_, ?_⟩, by simp [push], ?_⟩
    · simpa using hoi
    · simpa using hni
    · intro op hop
      simp only [push, List.mem_singleton] at hop
      exact hop ▸ huwf
  | cons op rest =>
    obtain ⟨hi, hj, hrest⟩ := hcov
    by_cases hopEq : isEqTag op.tag = true <;> by_cases huEq : isEqTag u.tag = true
    · -- both Equal: merge into a longer Equal op
      have hpush : push (op :: rest) u =
          ⟨DiffTag.equal, op.old_index, op.old_len + u.old_len, op.new_index,
            op.new_len + u.new_len⟩ :: rest := by
        simp [push, hopEq, huEq]
      rcases hu with ⟨ht, h1, h2, x, hx, hy⟩ | ⟨ht, _, _⟩ | ⟨ht, _, _⟩
      · have hopTag : op.tag = DiffTag.equal := isEqTag_eq_true.mp hopEq
        obtain ⟨hlen, hslice⟩ := (hwf op (by simp)).2.1 hopTag
        rw [hpush]
        refine ⟨⟨by dsimp only; omega, by dsimp only; omega, hrest⟩, ?_, ?_⟩
        · exact chain'_replace_head (by simpa [isEqTag] using hopEq.symm) hchain
        · intro o ho
          rcases List.mem_cons.mp ho with rfl | ho'
          · refine ⟨by dsimp only; omega, fun _ => ⟨by dsimp only; omega, ?_⟩, by simp, by simp,
              by simp⟩
            dsimp only
            rw [h1, h2, sliceAt_snoc (by rw [← hi, hx]),
              sliceAt_snoc (by rw [← hj, hy]), hslice]
          · exact hwf o (List.mem_cons_of_mem _ ho')
      · rw [isEqTag_eq_true] at huEq; rw [huEq] at ht; cases ht
      · rw [isEqTag_eq_true] at huEq; rw [huEq] at ht; cases ht
    · -- Equal followed by a change op: append
      have hpush : push (op :: rest) u = u :: op :: rest := by
        simp [push, hopEq, huEq]
      rw [hpush]
      refine ⟨⟨by omega, by omega, by rw [hoi, hni]; exact ⟨hi, hj, hrest⟩⟩, ?_, ?_⟩
      · exact List.Chain'.cons (by simp [altTag, hopEq, huEq]) hchain
      · intro o ho
        rcases List.mem_cons.mp ho with rfl | ho'
        · exact huwf
        · exact hwf o ho'
    · -- change op followed by an Equal unit: append
      have hpush : push (op :: rest) u = u :: op :: rest := by
        simp [push, hopEq, huEq]
      rw [hpush]
      refine ⟨⟨by omega, by omega, by rw [hoi, hni]; exact ⟨hi, hj, hrest⟩⟩, ?_, ?_⟩
      · exact List.Chain'.cons (by simp [altTag, hopEq, huEq]) hchain
      · intro o ho
        rcases List.mem_cons.mp ho with rfl | ho'
        · exact huwf
        · exact hwf o ho'
    · -- change op followed by a change unit: merge
      have hpush : push (op :: rest) u =
          ⟨changeTag (op.old_len + u.old_len) (op.new_len + u.new_len), op.old_index,
            op.old_len + u.old_len, op.new_index, op.new_len + u.new_len⟩ :: rest := by
        simp [push, hopEq, huEq]
      have hsum : 0 < op.old_len + op.new_len := (hwf op (by simp)).1
      rw [hpush]
      have hopF : isEqTag op.tag = false := by
        cases hc : isEqTag op.tag
        · rfl
        · exact absurd hc hopEq
      refine ⟨⟨by dsimp only; omega, by dsimp only; omega, hrest⟩, ?_, ?_⟩
      · exact chain'_replace_head (by dsimp only; rw [isEqTag_changeTag, hopF]) hchain
      · intro o ho
        rcases List.mem_cons.mp ho with rfl | ho'
        · exact opWF_change XS YS _ _ _ _ (by omega)
        · exact hwf o (List.mem_cons_of_mem _ ho')

lemma accInv_foldl {XS YS : List α} :
    ∀ (units acc : List DiffOp) (i j i' j' : ℕ), accInv XS YS acc i j →
      unitsOKTo XS YS units i j i' j' → accInv XS YS (units.foldl push acc) i' j' := by
  intro units
  induction units with
  | nil =>
    intro acc i j i' j' hacc hu
    obtain ⟨rfl, rfl⟩ := hu
    exact hacc
  | cons u us ih =>
    intro acc i j i' j' hacc hu
    obtain ⟨hoi, hni, hcase, hrest⟩ := hu
    exact ih (push acc u) _ _ i' j' (accInv_push hacc hoi hni hcase) hrest

lemma coalesce_ok {XS YS : List α} {units : List DiffOp} {la lb : ℕ}
    (h : unitsOKTo XS YS units 0 0 la lb) :
    covers (coalesce units) 0 0 la lb ∧ List.Chain' altTag (coalesce units) ∧
      ∀ op ∈ coalesce units, opWF XS YS op := by
  have hinv : accInv XS YS (units.foldl push []) la lb :=
    accInv_foldl units [] 0 0 la lb ⟨⟨rfl, rfl⟩, by simp, by simp⟩ h
  obtain ⟨hcov, hchain, hwf⟩ := hinv
  refine ⟨covers_of_coversRev hcov, ?_, ?_⟩
  · rw [coalesce, List.chain'_reverse]
    exact List.Chain'.imp (fun a b hab e => hab e.symm) hchain
  · intro op hop
    exact hwf op (by simpa [coalesce] using hop)

/-! ## Patience anchors -/

lemma countTok_pos {x : α} [DecidableEq α] : ∀ {l : List α} {i : ℕ}, l[i]? = some x →
    0 < countTok x l := by
  intro l
  induction l with
  | nil => intro i h; simp at h
  | cons y t ih =>
    intro i h
    cases i with
    | zero =>
      simp only [List.getElem?_cons_zero, Option.some.injEq] at h
      simp [countTok, h]
    | succ n =>
      simp only [List.getElem?_cons_succ] at h
      have := ih h
      unfold countTok
      omega

lemma firstIdx_getElem [DecidableEq α] {x : α} :
    ∀ {l : List α} {k : ℕ}, firstIdx x l = some k → l[k]? = some x := by
  intro l
  induction l with
  | nil => intro k h; simp [firstIdx] at h
  | cons y t ih =>
    intro k h
    by_cases hy : y = x
    · simp only [firstIdx, if_pos hy] at h
      obtain rfl := Option.some.injEq .. ▸ h.symm
      simpa using hy
    · simp only [firstIdx, if_neg hy] at h
      cases hf : firstIdx x t with
      | none => rw [hf] at h; simp at h
      | some m =>
        rw [hf] at h
        simp only [Option.map_some', Option.some.injEq] at h
        subst h
        simpa using ih hf

lemma firstIdx_of_count_one [DecidableEq α] {x : α} :
    ∀ {l : List α} {i : ℕ}, countTok x l = 1 → l[i]? = some x → firstIdx x l = some i := by
  intro l
  induction l with
  | nil => intro i h1 h2; simp at h2
  | cons y t ih =>
    intro i h1 h2
    by_cases hy : y = x
    · cases i with
      | zero => simp [firstIdx, hy]
      | succ n =>
        simp only [List.getElem?_cons_succ] at h2
        have ht : 0 < countTok x t := countTok_pos h2
        unfold countTok at h1
        rw [if_pos hy] at h1
        omega
    · cases i with
      | zero =>
        simp only [List.getElem?_cons_zero, Option.some.injEq] at h2
        exact absurd h2 hy
      | succ n =>
        simp only [List.getElem?_cons_succ] at h2
        unfold countTok at h1
        rw [if_neg hy] at h1
        simp only [Nat.zero_add] at h1
        simp [firstIdx, hy, ih h1 h2]

lemma mem_uniqueCommon [DecidableEq α] {xs ys : List α} {q : ℕ × ℕ}
    (h : q ∈ uniqueCommon xs ys) :
    q.1 < xs.length ∧ q.2 < ys.length ∧
      ∃ x, xs[q.1]? = some x ∧ ys[q.2]? = some x ∧ countTok x xs = 1 ∧ countTok x ys = 1 ∧
        firstIdx x ys = some q.2 := by
  unfold uniqueCommon at h
  rw [List.mem_filterMap] at h
  obtain ⟨i, hi, hf⟩ := h
  rw [List.mem_range] at hi
  cases hx : xs[i]? with
  | none => rw [hx] at hf; simp at hf
  | some x =>
    rw [hx] at hf
    simp only at hf
    by_cases hc : countTok x xs = 1 ∧ countTok x ys = 1
    · rw [if_pos hc] at hf
      cases hfi : firstIdx x ys with
      | none => rw [hfi] at hf; simp at hf
      | some k =>
        rw [hfi] at hf
        simp only [Option.map_some', Option.some.injEq] at hf
        subst hf
        have hyk := firstIdx_getElem hfi
        have hk : k < ys.length := by
          rw [List.getElem?_eq_some] at hyk
          exact hyk.1
        exact ⟨hi, hk, x, hx, hyk, hc.1, hc.2, hfi⟩
    · rw [if_neg hc] at hf
      simp at hf

/-- The chain condition maintained by `lisAux`: successive elements strictly
increase in both coordinates, starting from the optional previous element. -/
def chainO : Option (ℕ × ℕ) → List (ℕ × ℕ) → Prop
  | _, [] => True
  | c, q :: rest => lisCompat c q = true ∧ chainO (some q) rest

lemma chainO_lisAux : ∀ (l : List (ℕ × ℕ)) (c : Option (ℕ × ℕ)), chainO c (lisAux c l) := by
  intro l
  induction l with
  | nil => intro c; simp [lisAux, chainO]
  | cons q rest ih =>
    intro c
    simp only [lisAux]
    split
    · split
      · exact ⟨by assumption, ih (some q)⟩
      · exact ih c
    · exact ih c

lemma lisAux_sublist : ∀ (l : List (ℕ × ℕ)) (c : Option (ℕ × ℕ)), List.Sublist (lisAux c l) l := by
  intro l
  induction l with
  | nil => intro c; simp [lisAux]
  | cons q rest ih =>
    intro c
    simp only [lisAux]
    split
    · split
      · exact List.Sublist.cons₂ q (ih (some q))
      · exact List.Sublist.cons q (ih c)
    · exact List.Sublist.cons q (ih c)

/-- Anchors are valid for sequences of length `la`/`lb` once the cursor is at
`(a, b)`: strictly increasing in both coordinates, starting at or after the
cursor, and in bounds. -/
def anchOK : ℕ → ℕ → ℕ → ℕ → List (ℕ × ℕ) → Prop
  | _, _, _, _, [] => True
  | a, b, la, lb, q :: rest =>
    a ≤ q.1 ∧ b ≤ q.2 ∧ q.1 < la ∧ q.2 < lb ∧ anchOK (q.1 + 1) (q.2 + 1) la lb rest

lemma anchOK_of_chainO {la lb : ℕ} : ∀ (anchors : List (ℕ × ℕ)) (c : Option (ℕ × ℕ)) (a b : ℕ),
    chainO c anchors → (∀ q ∈ anchors, q.1 < la ∧ q.2 < lb) →
    (∀ p, c = some p → a ≤ p.1 + 1 ∧ b ≤ p.2 + 1) → (c = none → a = 0 ∧ b = 0) →
    anchOK a b la lb anchors := by
  intro anchors
  induction anchors with
  | nil => intro c a b _ _ _ _; trivial
  | cons q rest ih =>
    intro c a b hchain hbound hsome hnone
    obtain ⟨hcompat, hrest⟩ := hchain
    have hq := hbound q (by simp)
    have haq : a ≤ q.1 ∧ b ≤ q.2 := by
      cases c with
      | none => have := hnone rfl; omega
      | some p =>
        have hp := hsome p rfl
        have hlt : p.1 < q.1 ∧ p.2 < q.2 := by simpa [lisCompat] using hcompat
        omega
    exact ⟨haq.1, haq.2, hq.1, hq.2,
      ih (some q) (q.1 + 1) (q.2 + 1) hrest (fun r hr => hbound r (by simp [hr]))
        (fun p hp => by cases hp; omega) (by simp)⟩

lemma lis_uniqueCommon_ok [DecidableEq α] (xs ys : List α) :
    anchOK 0 0 xs.length ys.length (lis (uniqueCommon xs ys)) ∧
      ∀ q ∈ lis (uniqueCommon xs ys), ∃ x, xs[q.1]? = some x ∧ ys[q.2]? = some x := by
  have hsub : List.Sublist (lis (uniqueCommon xs ys)) (uniqueCommon xs ys) :=
    lisAux_sublist (uniqueCommon xs ys) none
  have hmem : ∀ q ∈ lis (uniqueCommon xs ys), q ∈ uniqueCommon xs ys :=
    fun q hq => List.Sublist.mem hq hsub
  constructor
  · refine anchOK_of_chainO _ none 0 0 (chainO_lisAux (uniqueCommon xs ys) none) ?_
      (by simp) (fun _ => ⟨rfl, rfl⟩)
    intro q hq
    have h := mem_uniqueCommon (hmem q hq)
    exact ⟨h.1, h.2.1⟩
  · intro q hq
    obtain ⟨-, -, x, hx, hy, -⟩ := mem_uniqueCommon (hmem q hq)
    exact ⟨x, hx, hy⟩

lemma drop_append_of_le {xs t : List α} {a : ℕ} (h : a ≤ xs.length) :
    (xs ++ t).drop a = xs.drop a ++ t := by
  rw [List.drop_append_eq_append_drop, Nat.sub_eq_zero_of_le h]
  simp

lemma unitsOKTo_patienceGo [DecidableEq α] {XS YS : List α} (fuel : ℕ)
    (hP : ∀ (xs ys : List α) (o p : ℕ) (tx ty : List α), XS.drop o = xs ++ tx →
      YS.drop p = ys ++ ty →
      unitsOKTo XS YS (patienceRaw fuel xs ys o p) o p (o + xs.length) (p + ys.length)) :
    ∀ (anchors : List (ℕ × ℕ)) (xs ys : List α) (o p a b : ℕ) (tx ty : List α),
      anchOK a b xs.length ys.length anchors →
      (∀ q ∈ anchors, ∃ x, xs[q.1]? = some x ∧ ys[q.2]? = some x) →
      a ≤ xs.length → b ≤ ys.length →
      XS.drop o = xs ++ tx → YS.drop p = ys ++ ty →
      unitsOKTo XS YS (patienceGo fuel xs ys o p a b anchors) (o + a) (p + b)
        (o + xs.length) (p + ys.length) := by
  intro anchors
  induction anchors with
  | nil =>
    intro xs ys o p a b tx ty hanch hvals ha hb hx hy
    rw [patienceGo]
    have hx' : XS.drop (o + a) = xs.drop a ++ tx := by
      rw [← List.drop_drop a o XS, hx, drop_append_of_le ha]
    have hy' : YS.drop (p + b) = ys.drop b ++ ty := by
      rw [← List.drop_drop b p YS, hy, drop_append_of_le hb]
    have h := hP (xs.drop a) (ys.drop b) (o + a) (p + b) tx ty hx' hy'
    have e1 : o + a + (xs.drop a).length = o + xs.length := by
      rw [List.length_drop]
      omega
    have e2 : p + b + (ys.drop b).length = p + ys.length := by
      rw [List.length_drop]
      omega
    rw [e1, e2] at h
    exact h
  | cons q rest ihanch =>
    intro xs ys o p a b tx ty hanch hvals ha hb hx hy
    obtain ⟨i, k⟩ := q
    obtain ⟨hai, hbk, hila, hklb, hrest⟩ := hanch
    obtain ⟨x, hxi, hyk⟩ := hvals (i, k) (by simp)
    rw [patienceGo]
    have hx' : XS.drop (o + a) = xs.drop a ++ tx := by
      rw [← List.drop_drop a o XS, hx, drop_append_of_le ha]
    have hy' : YS.drop (p + b) = ys.drop b ++ ty := by
      rw [← List.drop_drop b p YS, hy, drop_append_of_le hb]
    have hseg1 : XS.drop (o + a) = (xs.drop a).take (i - a) ++ ((xs.drop a).drop (i - a) ++ tx) := by
      rw [hx', ← List.append_assoc, List.take_append_drop]
    have hseg2 : YS.drop (p + b) = (ys.drop b).take (k - b) ++ ((ys.drop b).drop (k - b) ++ ty) := by
      rw [hy', ← List.append_assoc, List.take_append_drop]
    have hlen1 : ((xs.drop a).take (i - a)).length = i - a := by
      rw [List.length_take, List.length_drop]
      omega
    have hlen2 : ((ys.drop b).take (k - b)).length = k - b := by
      rw [List.length_take, List.length_drop]
      omega
    have h1 := hP ((xs.drop a).take (i - a)) ((ys.drop b).take (k - b)) (o + a) (p + b) _ _
      hseg1 hseg2
    rw [hlen1, hlen2] at h1
    have e1 : o + a + (i - a) = o + i := by omega
    have e2 : p + b + (k - b) = p + k := by omega
    rw [e1, e2] at h1
    have hXx : XS[o + i]? = some x := getElem?_of_drop_eq hx hxi
    have hYx : YS[p + k]? = some x := getElem?_of_drop_eq hy hyk
    have h2 : unitsOKTo XS YS [⟨DiffTag.equal, o + i, 1, p + k, 1⟩] (o + i) (p + k)
        (o + i + 1) (p + k + 1) :=
      ⟨rfl, rfl, Or.inl ⟨rfl, rfl, rfl, x, hXx, hYx⟩, rfl, rfl⟩
    have h3 := ihanch xs ys o p (i + 1) (k + 1) tx ty hrest
      (fun r hr => hvals r (by simp [hr])) (by omega) (by omega) hx hy
    have h23 := unitsOKTo_append h2 h3
    exact unitsOKTo_append h1 h23

lemma unitsOKTo_patienceRaw [DecidableEq α] {XS YS : List α} :
    ∀ (fuel : ℕ) (xs ys : List α) (o p : ℕ) (tx ty : List α), XS.drop o = xs ++ tx →
      YS.drop p = ys ++ ty →
      unitsOKTo XS YS (patienceRaw fuel xs ys o p) o p (o + xs.length) (p + ys.length) := by
  intro fuel
  induction fuel with
  | zero =>
    intro xs ys o p tx ty hx hy
    rw [patienceRaw]
    exact unitsOKTo_myersRaw hx hy
  | succ f ih =>
    intro xs ys o p tx ty hx hy
    rw [patienceRaw]
    cases hanch : lis (uniqueCommon xs ys) with
    | nil => exact unitsOKTo_myersRaw hx hy
    | cons q rest =>
      have hok := lis_uniqueCommon_ok xs ys
      rw [hanch] at hok
      have h := unitsOKTo_patienceGo f (fun xs' ys' o' p' tx' ty' hx' hy' =>
          ih xs' ys' o' p' tx' ty' hx' hy') (q :: rest) xs ys o p 0 0 tx ty hok.1 hok.2
        (by omega) (by omega) hx hy
      simpa using h

lemma capture_ok [DecidableEq α] (alg : Algorithm) (A B : List α) :
    covers (capture_diff_slices alg A B) 0 0 A.length B.length ∧
      List.Chain' altTag (capture_diff_slices alg A B) ∧
      ∀ op ∈ capture_diff_slices alg A B, opWF A B op := by
  cases alg with
  | myers =>
    have hx0 : A.drop 0 = A ++ ([] : List α) := by simp
    have hy0 : B.drop 0 = B ++ ([] : List α) := by simp
    have h := unitsOKTo_myersRaw hx0 hy0
    simp only [Nat.zero_add] at h
    exact coalesce_ok h
  | patience =>
    have hx0 : A.drop 0 = A ++ ([] : List α) := by simp
    have hy0 : B.drop 0 = B ++ ([] : List α) := by simp
    have h := unitsOKTo_patienceRaw (A.length + B.length) A B 0 0 [] [] hx0 hy0
    simp only [Nat.zero_add] at h
    exact coalesce_ok h

lemma diff_ops_eq [DecidableEq α] (cfg : TextDiffConfig) (A B : List α) (nt : Bool) :
    TextDiff.ops (TextDiffConfig.diff cfg A B nt) = capture_diff_slices cfg.algorithm A B := rfl

lemma diff_old_eq [DecidableEq α] (cfg : TextDiffConfig) (A B : List α) (nt : Bool) :
    TextDiff.old (TextDiffConfig.diff cfg A B nt) = A := rfl

lemma diff_new_eq [DecidableEq α] (cfg : TextDiffConfig) (A B : List α) (nt : Bool) :
    TextDiff.new (TextDiffConfig.diff cfg A B nt) = B := rfl

/-- C1: for every pair of token sequences `A`, `B` and every configuration,
the ops stored in a `TextDiff` session (the list returned by
`TextDiff::ops`) exactly partition `[0, |A|)` and `[0, |B|)`: listed in
monotonically increasing old/new index order, each op starts exactly where
the previous one ends (no gaps, no overlaps), the ranges start at `0` and end
exactly at `|A|`/`|B|` (`covers … 0 0 |A| |B|`), and no two adjacent ops
carry the same tag. -/
theorem C1_ops_partition {α : Type} [DecidableEq α] (cfg : TextDiffConfig) (A B : List α)
    (nt : Bool) :
    covers (TextDiff.ops (TextDiffConfig.diff cfg A B nt)) 0 0 A.length B.length ∧
      List.Chain' (fun x y => x.tag ≠ y.tag)
        (TextDiff.ops (TextDiffConfig.diff cfg A B nt)) := by
  have h := capture_ok (A := A) (B := B) cfg.algorithm
  rw [diff_ops_eq]
  refine ⟨h.1, List.Chain'.imp ?_ h.2.1⟩
  intro a b hab he
  exact hab (by rw [he])

/-! ## Expanding ops into changes reconstructs the inputs -/

lemma flatten_oldSlices {XS : List α} : ∀ {ops : List DiffOp} {i j lb : ℕ},
    covers ops i j XS.length lb →
    ((ops.map fun op => sliceAt XS op.old_index op.old_len).flatten) = XS.drop i := by
  intro ops
  induction ops with
  | nil =>
    intro i j lb h
    obtain ⟨rfl, -⟩ := h
    simp [List.drop_length]
  | cons op rest ih =>
    intro i j lb h
    obtain ⟨hoi, hni, hrest⟩ := h
    simp only [List.map_cons, List.flatten_cons]
    rw [ih hrest, hoi]
    unfold sliceAt
    rw [← List.drop_drop op.old_len i XS, List.take_append_drop]

lemma flatten_newSlices {YS : List α} : ∀ {ops : List DiffOp} {i j la : ℕ},
    covers ops i j la YS.length →
    ((ops.map fun op => sliceAt YS op.new_index op.new_len).flatten) = YS.drop j := by
  intro ops
  induction ops with
  | nil =>
    intro i j la h
    obtain ⟨-, rfl⟩ := h
    simp [List.drop_length]
  | cons op rest ih =>
    intro i j la h
    obtain ⟨hoi, hni, hrest⟩ := h
    simp only [List.map_cons, List.flatten_cons]
    rw [ih hrest, hni]
    unfold sliceAt
    rw [← List.drop_drop op.new_len j YS, List.take_append_drop]

lemma map_value_enum {l : List α} {f : ℕ × α → Change α} (hf : ∀ q, Change.value (f q) = q.2) :
    ((l.enum.map f).map Change.value) = l := by
  rw [List.map_map]
  have h : (Change.value ∘ f) = Prod.snd := funext fun q => hf q
  rw [h, List.enum_map_snd]

lemma filter_map_of_true {β : Type} {l : List β} {f : β → Change α} {p : Change α → Bool}
    (hp : ∀ q, p (f q) = true) : (l.map f).filter p = l.map f := by
  rw [List.filter_eq_self]
  intro c hc
  rw [List.mem_map] at hc
  obtain ⟨q, -, rfl⟩ := hc
  exact hp q

lemma filter_map_of_false {β : Type} {l : List β} {f : β → Change α} {p : Change α → Bool}
    (hp : ∀ q, p (f q) = false) : (l.map f).filter p = [] := by
  rw [List.filter_eq_nil_iff]
  intro c hc
  rw [List.mem_map] at hc
  obtain ⟨q, -, rfl⟩ := hc
  simp [hp]

lemma changes_filter_old {XS YS : List α} {op : DiffOp} (hWF : opWF XS YS op) :
    (((DiffOp.changes XS YS op).filter fun c => !(c.tag == DiffTag.insert)).map Change.value)
      = sliceAt XS op.old_index op.old_len := by
  cases htag : op.tag with
  | equal =>
    unfold DiffOp.changes
    rw [htag]
    dsimp only
    rw [filter_map_of_true (fun q => rfl), map_value_enum (fun q => rfl)]
  | delete =>
    unfold DiffOp.changes
    rw [htag]
    dsimp only
    rw [filter_map_of_true (fun q => rfl), map_value_enum (fun q => rfl)]
  | insert =>
    unfold DiffOp.changes
    rw [htag]
    dsimp only
    rw [filter_map_of_false (fun q => rfl)]
    have h0 : op.old_len = 0 := (hWF.2.2.2.1 htag).1
    simp [sliceAt, h0]
  | replace =>
    unfold DiffOp.changes
    rw [htag]
    dsimp only
    rw [List.filter_append, filter_map_of_true (fun q => rfl),
      filter_map_of_false (fun q => rfl), List.append_nil, map_value_enum (fun q => rfl)]

lemma changes_filter_new {XS YS : List α} {op : DiffOp} (hWF : opWF XS YS op) :
    (((DiffOp.changes XS YS op).filter fun c => !(c.tag == DiffTag.delete)).map Change.value)
      = sliceAt YS op.new_index op.new_len := by
  cases htag : op.tag with
  | equal =>
    unfold DiffOp.changes
    rw [htag]
    dsimp only
    rw [filter_map_of_true (fun q => rfl), map_value_enum (fun q => rfl)]
    exact (hWF.2.1 htag).2
  | delete =>
    unfold DiffOp.changes
    rw [htag]
    dsimp only
    rw [filter_map_of_false (fun q => rfl)]
    have h0 : op.new_len = 0 := (hWF.2.2.1 htag).2
    simp [sliceAt, h0]
  | insert =>
    unfold DiffOp.changes
    rw [htag]
    dsimp only
    rw [filter_map_of_true (fun q => rfl), map_value_enum (fun q => rfl)]
  | replace =>
    unfold DiffOp.changes
    rw [htag]
    dsimp only
    rw [List.filter_append, filter_map_of_false (fun q => rfl),
      filter_map_of_true (fun q => rfl), List.nil_append, map_value_enum (fun q => rfl)]

lemma reconstruct_generic {XS YS : List α} (p : Change α → Bool) (g : DiffOp → List α) :
    ∀ ops : List DiffOp,
      (∀ op ∈ ops, ((DiffOp.changes XS YS op).filter p).map Change.value = g op) →
      (((ops.map (DiffOp.changes XS YS)).flatten.filter p).map Change.value)
        = (ops.map g).flatten := by
  intro ops
  induction ops with
  | nil => intro h; simp
  | cons op rest ih =>
    intro h
    simp only [List.map_cons, List.flatten_cons, List.filter_append, List.map_append]
    rw [h op (by simp), ih (fun o ho => h o (by simp [ho]))]

/-- C2: for every pair of inputs and every configuration, flattening the
session's ops into Changes via `iter_all_changes` and keeping only the
Changes that are not inserts reproduces the old token sequence exactly; and
keeping only the Changes that are not deletes reproduces the new token
sequence exactly. -/
theorem C2_changes_reconstruct {α : Type} [DecidableEq α] (cfg : TextDiffConfig)
    (A B : List α) (nt : Bool) :
    (((TextDiff.iter_all_changes (TextDiffConfig.diff cfg A B nt)).filter
        fun c => !(c.tag == DiffTag.insert)).map Change.value) = A ∧
    (((TextDiff.iter_all_changes (TextDiffConfig.diff cfg A B nt)).filter
        fun c => !(c.tag == DiffTag.delete)).map Change.value) = B := by
  have hcap := capture_ok (A := A) (B := B) cfg.algorithm
  have hops : TextDiff.iter_all_changes (TextDiffConfig.diff cfg A B nt)
      = ((capture_diff_slices cfg.algorithm A B).map (DiffOp.changes A B)).flatten := rfl
  constructor
  · rw [hops, reconstruct_generic _ (fun op => sliceAt A op.old_index op.old_len) _
      (fun op hop => changes_filter_old (hcap.2.2 op hop))]
    rw [flatten_oldSlices hcap.1]
    exact List.drop_zero A
  · rw [hops, reconstruct_generic _ (fun op => sliceAt B op.new_index op.new_len) _
      (fun op hop => changes_filter_new (hcap.2.2 op hop))]
    rw [flatten_newSlices hcap.1]
    exact List.drop_zero B

/-! ## Ratio lemmas -/

lemma covers_sums : ∀ {ops : List DiffOp} {i j la lb : ℕ}, covers ops i j la lb →
    i + (ops.map DiffOp.old_len).sum = la ∧ j + (ops.map DiffOp.new_len).sum = lb := by
  intro ops
  induction ops with
  | nil =>
    intro i j la lb h
    obtain ⟨rfl, rfl⟩ := h
    simp
  | cons op rest ih =>
    intro i j la lb h
    obtain ⟨hoi, hni, hrest⟩ := h
    have h' := ih hrest
    simp only [List.map_cons, List.sum_cons]
    omega

lemma sumEqualLen_le {XS YS : List α} : ∀ {ops : List DiffOp},
    (∀ op ∈ ops, opWF XS YS op) →
    sumEqualLen ops ≤ (ops.map DiffOp.old_len).sum ∧
      sumEqualLen ops ≤ (ops.map DiffOp.new_len).sum := by
  intro ops
  induction ops with
  | nil => intro h; simp [sumEqualLen]
  | cons op rest ih =>
    intro h
    have hr := ih fun o ho => h o (List.mem_cons_of_mem _ ho)
    have hop := h op (by simp)
    simp only [sumEqualLen, List.map_cons, List.sum_cons] at hr ⊢
    by_cases htag : op.tag = DiffTag.equal
    · have hlen := (hop.2.1 htag).1
      rw [if_pos htag]
      omega
    · rw [if_neg htag]
      omega

lemma sesF_diag [DecidableEq α] : ∀ (f : ℕ) (l : List α), l.length ≤ f →
    sesF f l l = l.map fun _ => Step.keep := by
  intro f
  induction f with
  | zero =>
    intro l h
    rw [Nat.le_zero] at h
    rw [List.length_eq_zero] at h
    subst h
    rfl
  | succ f ih =>
    intro l h
    cases l with
    | nil => rfl
    | cons x t =>
      have hs : sesF (f + 1) (x :: t) (x :: t) = Step.keep :: sesF f t t := by
        simp [sesF]
      rw [hs, List.map_cons, ih t (by simpa using Nat.le_of_succ_le_succ h)]

lemma sumEq_stepOps_keep : ∀ (s : List Step) (i j : ℕ), (∀ st ∈ s, st = Step.keep) →
    sumEqualLen (stepOps i j s) = s.length := by
  intro s
  induction s with
  | nil => intro i j h; rfl
  | cons st rest ih =>
    intro i j h
    have hst : st = Step.keep := h st (by simp)
    subst hst
    have hrec := ih (i + 1) (j + 1) fun st' h' => h st' (by simp [h'])
    simp only [sumEqualLen] at hrec ⊢
    simp only [stepOps, List.map_cons, List.sum_cons, List.length_cons, if_true]
    rw [hrec]
    omega

lemma sumEq_myersRaw_diag [DecidableEq α] (l : List α) (o p : ℕ) :
    sumEqualLen (myersRaw l l o p) = l.length := by
  unfold myersRaw myersSteps
  rw [sesF_diag (l.length + l.length) l (by omega)]
  rw [sumEq_stepOps_keep _ o p (by
    intro st hst
    rw [List.map_const'] at hst
    exact List.eq_of_mem_replicate hst)]
  simp

lemma sumEqualLen_append (xs ys : List DiffOp) :
    sumEqualLen (xs ++ ys) = sumEqualLen xs + sumEqualLen ys := by
  simp [sumEqualLen]

lemma sumEq_push (acc : List DiffOp) (u : DiffOp) :
    sumEqualLen (push acc u) = sumEqualLen acc
      + (if u.tag = DiffTag.equal then u.old_len else 0) := by
  cases acc with
  | nil => simp [push, sumEqualLen, Nat.add_comm]
  | cons op rest =>
    by_cases hopEq : isEqTag op.tag = true <;> by_cases huEq : isEqTag u.tag = true
    · have h1 : op.tag = DiffTag.equal := isEqTag_eq_true.mp hopEq
      have h2 : u.tag = DiffTag.equal := isEqTag_eq_true.mp huEq
      simp only [push, hopEq, huEq, Bool.and_self, if_pos]
      simp [sumEqualLen, h1, h2]
      omega
    · have h2 : u.tag ≠ DiffTag.equal := fun e => huEq (isEqTag_eq_true.mpr e)
      simp only [push, hopEq, huEq]
      simp [sumEqualLen, h2]
    · have h1 : op.tag ≠ DiffTag.equal := fun e => hopEq (isEqTag_eq_true.mpr e)
      simp only [push, hopEq, huEq]
      simp [sumEqualLen, h1]
      omega
    · have h1 : op.tag ≠ DiffTag.equal := fun e => hopEq (isEqTag_eq_true.mpr e)
      have h2 : u.tag ≠ DiffTag.equal := fun e => huEq (isEqTag_eq_true.mpr e)
      simp only [push, hopEq, huEq]
      have hm : changeTag (op.old_len + u.old_len) (op.new_len + u.new_len) ≠ DiffTag.equal := by
        unfold changeTag
        split_ifs <;> simp
      simp [sumEqualLen, h1, h2, hm]

lemma sumEq_foldl_push : ∀ (units acc : List DiffOp),
    sumEqualLen (units.foldl push acc) = sumEqualLen acc + sumEqualLen units := by
  intro units
  induction units with
  | nil => intro acc; simp [sumEqualLen]
  | cons u us ih =>
    intro acc
    simp only [List.foldl_cons]
    rw [ih (push acc u), sumEq_push]
    have : sumEqualLen (u :: us) = (if u.tag = DiffTag.equal then u.old_len else 0)
        + sumEqualLen us := by
      simp [sumEqualLen]
    rw [this]
    omega

lemma sumEq_reverse (l : List DiffOp) : sumEqualLen l.reverse = sumEqualLen l := by
  simp [sumEqualLen, List.map_reverse, List.sum_reverse]

lemma sumEq_coalesce (units : List DiffOp) : sumEqualLen (coalesce units) = sumEqualLen units := by
  rw [coalesce, sumEq_reverse, sumEq_foldl_push]
  simp [sumEqualLen]

lemma uniqueCommon_diag [DecidableEq α] {l : List α} {q : ℕ × ℕ}
    (h : q ∈ uniqueCommon l l) : q.2 = q.1 := by
  obtain ⟨h1, -, x, hx, -, hcnt, -, hfi⟩ := mem_uniqueCommon h
  have := firstIdx_of_count_one hcnt hx
  rw [hfi] at this
  exact (Option.some.injEq ..).mp this

lemma sumEq_patienceGo_diag [DecidableEq α] (fuel : ℕ)
    (hP : ∀ (l : List α) (o p : ℕ), sumEqualLen (patienceRaw fuel l l o p) = l.length) :
    ∀ (anchors : List (ℕ × ℕ)) (l : List α) (o p a : ℕ),
      anchOK a a l.length l.length anchors → (∀ q ∈ anchors, q.2 = q.1) →
      sumEqualLen (patienceGo fuel l l o p a a anchors) = l.length - a := by
  intro anchors
  induction anchors with
  | nil =>
    intro l o p a hanch hdiag
    rw [patienceGo, hP]
    simp
  | cons q rest ih =>
    intro l o p a hanch hdiag
    obtain ⟨i, k⟩ := q
    have hk : i = k := (hdiag (i, k) (by simp)).symm
    subst hk
    obtain ⟨hai, -, hila, -, hrest⟩ := hanch
    rw [patienceGo, sumEqualLen_append]
    have hseg := hP ((l.drop a).take (i - a)) (o + a) (p + a)
    rw [hseg]
    have hgo := ih l o p (i + 1) hrest fun r hr => hdiag r (by simp [hr])
    have hcons : sumEqualLen (⟨DiffTag.equal, o + i, 1, p + i, 1⟩
        :: patienceGo fuel l l o p (i + 1) (i + 1) rest)
        = 1 + sumEqualLen (patienceGo fuel l l o p (i + 1) (i + 1) rest) := by
      simp [sumEqualLen]
    rw [hcons, hgo]
    rw [List.length_take, List.length_drop]
    omega

lemma sumEq_patienceRaw_diag [DecidableEq α] :
    ∀ (fuel : ℕ) (l : List α) (o p : ℕ), sumEqualLen (patienceRaw fuel l l o p) = l.length := by
  intro fuel
  induction fuel with
  | zero =>
    intro l o p
    rw [patienceRaw]
    exact sumEq_myersRaw_diag l o p
  | succ f ih =>
    intro l o p
    rw [patienceRaw]
    cases hanch : lis (uniqueCommon l l) with
    | nil => exact sumEq_myersRaw_diag l o p
    | cons q rest =>
      have hok := (lis_uniqueCommon_ok l l).1
      rw [hanch] at hok
      have hdiag : ∀ r ∈ q :: rest, (r : ℕ × ℕ).2 = r.1 := by
        intro r hr
        rw [← hanch] at hr
        exact uniqueCommon_diag
          (List.Sublist.mem hr (lisAux_sublist (uniqueCommon l l) none))
      have h := sumEq_patienceGo_diag f ih (q :: rest) l o p 0 hok hdiag
      simpa using h

lemma sumEq_capture_diag [DecidableEq α] (alg : Algorithm) (l : List α) :
    sumEqualLen (capture_diff_slices alg l l) = l.length := by
  cases alg with
  | myers =>
    rw [show capture_diff_slices Algorithm.myers l l = coalesce (myersRaw l l 0 0) from rfl]
    rw [sumEq_coalesce, sumEq_myersRaw_diag]
  | patience =>
    rw [show capture_diff_slices Algorithm.patience l l
      = coalesce (patienceRaw (l.length + l.length) l l 0 0) from rfl]
    rw [sumEq_coalesce, sumEq_patienceRaw_diag]

lemma get_diff_ratioQ_bounds {XS YS : List α} {ops : List DiffOp}
    (hcov : covers ops 0 0 XS.length YS.length) (hwf : ∀ op ∈ ops, opWF XS YS op) :
    0 ≤ get_diff_ratioQ ops XS.length YS.length
      ∧ get_diff_ratioQ ops XS.length YS.length ≤ 1 := by
  unfold get_diff_ratioQ
  split_ifs with h
  · norm_num
  · have hs := covers_sums hcov
    have hM := sumEqualLen_le hwf
    have h2M : 2 * sumEqualLen ops ≤ XS.length + YS.length := by omega
    have hTpos : (0 : ℚ) < (XS.length : ℚ) + (YS.length : ℚ) := by
      have hp : 0 < XS.length + YS.length := Nat.pos_of_ne_zero h
      exact_mod_cast hp
    constructor
    · apply div_nonneg
      · positivity
      · exact le_of_lt hTpos
    · rw [div_le_one hTpos]
      have hc : ((2 * sumEqualLen ops : ℕ) : ℚ) ≤ ((XS.length + YS.length : ℕ) : ℚ) := by
        exact_mod_cast h2M
      push_cast at hc
      linarith

/-- C4: for all token sequences `A`, `B` and every configuration, the
session's ratio lies in `[0, 1]`; diffing any sequence against itself gives
ratio exactly `1`; and the char diff of two empty inputs has ratio `1`. -/
theorem C4_ratio_bounds :
    (∀ (cfg : TextDiffConfig) (A B : List Char) (nt : Bool),
      0 ≤ TextDiff.ratioQ (TextDiffConfig.diff cfg A B nt) ∧
        TextDiff.ratioQ (TextDiffConfig.diff cfg A B nt) ≤ 1) ∧
    (∀ (cfg : TextDiffConfig) (A : List Char) (nt : Bool),
      TextDiff.ratioQ (TextDiffConfig.diff cfg A A nt) = 1) ∧
    TextDiff.ratioQ (TextDiff.from_chars [] []) = 1 := by
  refine ⟨?_, ?_, ?_⟩
  · intro cfg A B nt
    have hcap := capture_ok (A := A) (B := B) cfg.algorithm
    exact get_diff_ratioQ_bounds hcap.1 hcap.2.2
  · intro cfg A nt
    have hM := sumEq_capture_diag cfg.algorithm A
    show get_diff_ratioQ (capture_diff_slices cfg.algorithm A A) A.length A.length = 1
    unfold get_diff_ratioQ
    rw [hM]
    split_ifs with h
    · rfl
    · have hA : (0 : ℚ) < (A.length : ℚ) + (A.length : ℚ) := by
        have hp : 0 < A.length + A.length := Nat.pos_of_ne_zero h
        exact_mod_cast hp
      rw [div_eq_one_iff_eq (ne_of_gt hA)]
      ring
  · rfl

attribute [local semireducible] Rat.mul Rat.inv Rat.add Rat.sub

/-- C3: for every pair of token sequences and every configuration, the
session ratio is exactly `2 * M / (|A| + |B|)` where `M` is the sum of the
lengths of the `Equal` ops (stated for `|A| + |B| ≠ 0`; the both-empty case
is defined as `1` and covered by C4); in particular the char diff of
`"abcd"` against `"bcde"` has ratio `0.75`. -/
theorem C3_ratio_exact :
    (∀ (cfg : TextDiffConfig) (A B : List Char) (nt : Bool), A.length + B.length ≠ 0 →
      TextDiff.ratioQ (TextDiffConfig.diff cfg A B nt)
        = 2 * (sumEqualLen (TextDiff.ops (TextDiffConfig.diff cfg A B nt)) : ℚ)
          / ((A.length : ℚ) + (B.length : ℚ))) ∧
    TextDiff.ratioQ (TextDiff.from_chars (String.toList "abcd") (String.toList "bcde"))
      = 3 / 4 := by
  constructor
  · intro cfg A B nt h
    show get_diff_ratioQ _ A.length B.length = _
    unfold get_diff_ratioQ
    rw [if_neg h]
  · decide

/-- Witness for C3 at a concrete input. -/
theorem C3_ratio_exact_witness :
    (['a'].length + ([] : List Char).length ≠ 0) ∧
      TextDiff.ratioQ (TextDiffConfig.diff TextDiffConfig.default ['a'] [] false)
        = 2 * (sumEqualLen
            (TextDiff.ops (TextDiffConfig.diff TextDiffConfig.default ['a'] [] false)) : ℚ)
          / ((['a'].length : ℚ) + (([] : List Char).length : ℚ)) :=
  ⟨by decide, C3_ratio_exact.1 TextDiffConfig.default ['a'] [] false (by decide)⟩

/-! ## Quick ratios never under-estimate the exact ratio -/

lemma covers_start_le : ∀ {ops : List DiffOp} {i j la lb : ℕ}, covers ops i j la lb →
    i ≤ la ∧ j ≤ lb := by
  intro ops
  induction ops with
  | nil => intro i j la lb h; obtain ⟨rfl, rfl⟩ := h; exact ⟨le_refl _, le_refl _⟩
  | cons op rest ih =>
    intro i j la lb h
    obtain ⟨hoi, hni, hrest⟩ := h
    have h' := ih hrest
    omega

lemma covers_op_bounds : ∀ {ops : List DiffOp} {i j la lb : ℕ}, covers ops i j la lb →
    ∀ op ∈ ops, op.old_index + op.old_len ≤ la ∧ op.new_index + op.new_len ≤ lb := by
  intro ops
  induction ops with
  | nil => intro i j la lb h op hop; simp at hop
  | cons o rest ih =>
    intro i j la lb h op hop
    obtain ⟨hoi, hni, hrest⟩ := h
    rcases List.mem_cons.mp hop with rfl | hmem
    · have h' := covers_start_le hrest
      omega
    · exact ih hrest op hmem

lemma sumEqualLen_eq_filter (ops : List DiffOp) :
    sumEqualLen ops
      = (((ops.filter fun op => op.tag == DiffTag.equal).map DiffOp.old_len).sum) := by
  induction ops with
  | nil => rfl
  | cons op rest ih =>
    simp only [sumEqualLen] at ih ⊢
    by_cases h : op.tag = DiffTag.equal
    · rw [List.filter_cons_of_pos (by simp [h])]
      simp only [List.map_cons, List.sum_cons, if_pos h]
      omega
    · rw [List.filter_cons_of_neg (by simp [h])]
      simp only [List.map_cons, List.sum_cons, if_neg h]
      omega

lemma length_flatten_oldSlices {XS : List α} {l : List DiffOp}
    (hb : ∀ op ∈ l, op.old_index + op.old_len ≤ XS.length) :
    ((l.map fun op => sliceAt XS op.old_index op.old_len).flatten).length
      = (l.map DiffOp.old_len).sum := by
  rw [List.length_flatten, List.map_map]
  congr 1
  apply List.map_congr_left
  intro op hop
  have hop' := hb op hop
  simp only [Function.comp_apply, sliceAt, List.length_take, List.length_drop]
  omega

lemma flatten_sublist {L1 L2 : List (List α)} (h : List.Sublist L1 L2) :
    List.Sublist L1.flatten L2.flatten := by
  induction h with
  | slnil => exact List.Sublist.refl _
  | cons a h ih =>
    rw [List.flatten_cons]
    exact ih.trans (List.sublist_append_right _ _)
  | cons₂ a h ih =>
    rw [List.flatten_cons, List.flatten_cons]
    exact List.Sublist.append (List.Sublist.refl a) ih

lemma matched_le_bagInter [DecidableEq α] {XS YS : List α} {ops : List DiffOp}
    (hcov : covers ops 0 0 XS.length YS.length) (hwf : ∀ op ∈ ops, opWF XS YS op) :
    sumEqualLen ops ≤ (XS.bagInter YS).length := by
  set eqOps := ops.filter fun op => op.tag == DiffTag.equal with heq
  have heqMem : ∀ op ∈ eqOps, op.tag = DiffTag.equal := by
    intro op hop
    have := List.of_mem_filter hop
    simpa using this
  set m := ((eqOps.map fun op => sliceAt XS op.old_index op.old_len).flatten) with hm
  -- m is a sub-multiset of XS
  have hsubX : List.Sublist m XS := by
    have h1 : List.Sublist (eqOps.map fun op => sliceAt XS op.old_index op.old_len)
        (ops.map fun op => sliceAt XS op.old_index op.old_len) :=
      List.Sublist.map _ (List.filter_sublist ops)
    have h2 := flatten_sublist h1
    rwa [flatten_oldSlices hcov, List.drop_zero] at h2
  -- m equals the flattened new-side slices of the Equal ops
  have hmY : m = ((eqOps.map fun op => sliceAt YS op.new_index op.new_len).flatten) := by
    rw [hm]
    congr 1
    apply List.map_congr_left
    intro op hop
    exact ((hwf op (List.mem_of_mem_filter hop)).2.1 (heqMem op hop)).2
  have hsubY : List.Sublist m YS := by
    rw [hmY]
    have h1 : List.Sublist (eqOps.map fun op => sliceAt YS op.new_index op.new_len)
        (ops.map fun op => sliceAt YS op.new_index op.new_len) :=
      List.Sublist.map _ (List.filter_sublist ops)
    have h2 := flatten_sublist h1
    rwa [flatten_newSlices hcov, List.drop_zero] at h2
  -- its length is the matched count
  have hlen : m.length = sumEqualLen ops := by
    rw [hm, length_flatten_oldSlices, sumEqualLen_eq_filter]
    intro op hop
    exact (covers_op_bounds hcov op (List.mem_of_mem_filter hop)).1
  -- conclude through the multiset intersection
  have hle : (m : Multiset α) ≤ (XS : Multiset α) ∩ (YS : Multiset α) :=
    Multiset.le_inter (Multiset.coe_le.mpr hsubX.subperm) (Multiset.coe_le.mpr hsubY.subperm)
  have hcard := Multiset.card_le_card hle
  have hbag : ((XS.bagInter YS : List α) : Multiset α) = (XS : Multiset α) ∩ YS := rfl
  rw [← hbag] at hcard
  simpa [hlen] using hcard

lemma ratio_if_mono {M K la lb : ℕ} (hM : M ≤ K) :
    (if la + lb = 0 then (1 : ℚ) else 2 * (M : ℚ) / ((la : ℚ) + (lb : ℚ)))
      ≤ (if la + lb = 0 then 1 else 2 * (K : ℚ) / ((la : ℚ) + (lb : ℚ))) := by
  split_ifs with h
  · exact le_refl _
  · have hT : (0 : ℚ) < (la : ℚ) + (lb : ℚ) := by
      have hp : 0 < la + lb := Nat.pos_of_ne_zero h
      exact_mod_cast hp
    have hMK : (M : ℚ) ≤ (K : ℚ) := by exact_mod_cast hM
    gcongr

/-- C5: for every query word and every candidate, both quick-ratio bounds
used for pruning in `get_close_matches` — the length-based
`upper_seq_ratio` and the multiset-intersection `QuickSeqRatio` — are at
least the exact ratio of the character diff of the two; consequently no
candidate whose exact ratio is at or above the cutoff is ever rejected by
the pre-filter. -/
theorem C5_quick_ratios_bound_exact (word p : List Char) :
    closeMatchRatioQ word p ≤ upper_seq_ratioQ (tokenize_chars word) (tokenize_chars p) ∧
    closeMatchRatioQ word p ≤ quickSeqRatioQ (tokenize_chars word) (tokenize_chars p) ∧
    ∀ cutoff : ℚ, cutoff ≤ closeMatchRatioQ word p →
      ¬(upper_seq_ratioQ (tokenize_chars word) (tokenize_chars p) < cutoff ∨
        quickSeqRatioQ (tokenize_chars word) (tokenize_chars p) < cutoff) := by
  have hcap := capture_ok (A := word) (B := p) Algorithm.myers
  have hsums := covers_sums hcap.1
  have hMle := sumEqualLen_le hcap.2.2
  have hbag := matched_le_bagInter hcap.1 hcap.2.2
  have hMla : sumEqualLen (capture_diff_slices Algorithm.myers word p) ≤ word.length := by
    omega
  have hMlb : sumEqualLen (capture_diff_slices Algorithm.myers word p) ≤ p.length := by
    omega
  have h1 : closeMatchRatioQ word p
      ≤ upper_seq_ratioQ (tokenize_chars word) (tokenize_chars p) := by
    show (if word.length + p.length = 0 then (1 : ℚ)
        else 2 * (sumEqualLen (capture_diff_slices Algorithm.myers word p) : ℚ)
          / ((word.length : ℚ) + (p.length : ℚ)))
      ≤ (if word.length + p.length = 0 then 1
        else 2 * ((min word.length p.length : ℕ) : ℚ) / ((word.length : ℚ) + (p.length : ℚ)))
    exact ratio_if_mono (le_min hMla hMlb)
  have h2 : closeMatchRatioQ word p
      ≤ quickSeqRatioQ (tokenize_chars word) (tokenize_chars p) := by
    show (if word.length + p.length = 0 then (1 : ℚ)
        else 2 * (sumEqualLen (capture_diff_slices Algorithm.myers word p) : ℚ)
          / ((word.length : ℚ) + (p.length : ℚ)))
      ≤ (if word.length + p.length = 0 then 1
        else 2 * ((word.bagInter p).length : ℚ) / ((word.length : ℚ) + (p.length : ℚ)))
    exact ratio_if_mono hbag
  refine ⟨h1, h2, ?_⟩
  intro cutoff hcut
  rintro (h | h) <;> linarith

/-- Witness for C5's pre-filter implication at a concrete input. -/
theorem C5_quick_ratios_witness :
    ((1 : ℚ) ≤ closeMatchRatioQ ['a'] ['a']) ∧
      ¬(upper_seq_ratioQ (tokenize_chars ['a']) (tokenize_chars ['a']) < 1 ∨
        quickSeqRatioQ (tokenize_chars ['a']) (tokenize_chars ['a']) < 1) :=
  ⟨by decide, (C5_quick_ratios_bound_exact ['a'] ['a']).2.2 1 (by decide)⟩

/-- C7: the two concrete close-match scenarios: `"appel"` against
`["ape","apple","peach","puppy"]` with `n = 3`, cutoff `0.6` returns exactly
`["apple","ape"]`, and `"hulo"` against the ten candidates with `n = 5`,
cutoff `0.7` returns exactly `["aulo","hulu","uulo","zulo"]`. -/
theorem C7_close_matches_examples :
    get_close_matches (String.toList "appel")
        [String.toList "ape", String.toList "apple", String.toList "peach",
          String.toList "puppy"] 3 (3 / 5)
      = [String.toList "apple", String.toList "ape"] ∧
    get_close_matches (String.toList "hulo")
        (["hi", "hulu", "hali", "hoho", "amaz", "zulo", "blah", "hopp", "uulo",
          "aulo"].map String.toList) 5 (7 / 10)
      = ["aulo", "hulu", "uulo", "zulo"].map String.toList := by
  constructor
  · decide
  · decide

/-- C8: every line diff created with the default configuration reports
`newline_terminated = true`, including when the old input's last line is
missing its trailing terminator, as in line-diffing `"a\nb"` against
`"a\nc\n"`. -/
theorem C8_lines_newline_terminated :
    (∀ old new : List Char,
      TextDiff.newline_terminated (TextDiffConfig.diff_lines TextDiffConfig.default old new)
        = true) ∧
    TextDiff.newline_terminated
        (TextDiff.from_lines (String.toList "a\nb") (String.toList "a\nc\n")) = true :=
  ⟨fun _ _ => rfl, rfl⟩

/-- C9: under the default configuration every constructor other than the
line-diff one (`diff_words`, `diff_chars`, `diff_unicode_words`,
`diff_graphemes`, `diff_slices`) produces a session with
`newline_terminated = false`; and after
`TextDiffConfig::newline_terminated(b)` every constructor produces a session
whose flag is exactly `b`, overriding the per-granularity default. -/
theorem C9_newline_flag_defaults_and_override :
    (∀ (old new : List Char) (seg : List Char → List (List Char)),
      TextDiff.newline_terminated (TextDiffConfig.diff_words TextDiffConfig.default old new)
        = false ∧
      TextDiff.newline_terminated (TextDiffConfig.diff_chars TextDiffConfig.default old new)
        = false ∧
      TextDiff.newline_terminated
        (TextDiffConfig.diff_unicode_words TextDiffConfig.default seg old new) = false ∧
      TextDiff.newline_terminated
        (TextDiffConfig.diff_graphemes TextDiffConfig.default seg old new) = false) ∧
    (∀ (α : Type) [DecidableEq α], ∀ (old new : List α),
      TextDiff.newline_terminated (TextDiffConfig.diff_slices TextDiffConfig.default old new)
        = false) ∧
    (∀ (cfg : TextDiffConfig) (b : Bool) (old new : List Char)
        (seg : List Char → List (List Char)),
      TextDiff.newline_terminated
        (TextDiffConfig.diff_lines (TextDiffConfig.withNewlineTerminated cfg b) old new) = b ∧
      TextDiff.newline_terminated
        (TextDiffConfig.diff_words (TextDiffConfig.withNewlineTerminated cfg b) old new) = b ∧
      TextDiff.newline_terminated
        (TextDiffConfig.diff_chars (TextDiffConfig.withNewlineTerminated cfg b) old new) = b ∧
      TextDiff.newline_terminated
        (TextDiffConfig.diff_unicode_words (TextDiffConfig.withNewlineTerminated cfg b) seg
          old new) = b ∧
      TextDiff.newline_terminated
        (TextDiffConfig.diff_graphemes (TextDiffConfig.withNewlineTerminated cfg b) seg
          old new) = b) ∧
    (∀ (α : Type) [DecidableEq α], ∀ (cfg : TextDiffConfig) (b : Bool) (old new : List α),
      TextDiff.newline_terminated
        (TextDiffConfig.diff_slices (TextDiffConfig.withNewlineTerminated cfg b) old new)
        = b) :=
  ⟨fun _ _ _ => ⟨rfl, rfl, rfl, rfl⟩, fun _ _ _ _ => rfl,
    fun _ _ _ _ _ => ⟨rfl, rfl, rfl, rfl, rfl⟩, fun _ _ _ _ _ _ => rfl⟩
